import Mathlib

/-!
# Verification of the imq-cli command flows

This development embeds the pure control-flow and string-processing logic of
the imq-cli repository into Lean and proves the specified properties about it.

Embedding conventions:
* JavaScript strings are modelled either as Lean `String` (when only equality
  tests are involved) or as `List Char` (when character-level scanning is
  involved, as in template and license substitution).
* Asynchronous calls and external effects (network, subprocess spawning,
  filesystem) are modelled by passing explicit oracles (functions producing
  the observed outcomes) and by returning traces of the performed actions.
* JavaScript truthiness of `number | null` process exit statuses is modelled
  on `Option Int` (`null` is falsy, `0` is falsy, any other number truthy).
-/

/- ----------------------------------------------------------------------
   src/service/update-version.ts
   ---------------------------------------------------------------------- -/

/-- The four git-flow steps run by `execGitFlow` in
`src/service/update-version.ts`: `git checkout <branch>`, `git pull`,
`npm version <version>`, `git push --follow-tags`. -/
inductive GitStep where
  | checkout
  | pull
  | bumpVersion
  | push
deriving DecidableEq, Repr

/-- JavaScript truthiness of the `status` field of a `SpawnSyncReturns`
value, which has type `number | null`: `null` and `0` are falsy, every
other number is truthy.  This is the test performed by
`if (handleSpawnResponse(response)) { return; }`. -/
def jsStatusTruthy : Option Int → Bool
  | none => false
  | some s => s != 0

/-- `handleSpawnResponse` from `update-version.ts`: logs stderr (omitted in
this model) and returns the exit status unchanged. -/
def handleSpawnResponse (status : Option Int) : Option Int := status

/-- `execGitFlow` from `update-version.ts`, modelled as the trace of steps it
invokes for one service directory.  The step runner `run` yields the exit
status of each external command (`none` models a `null` status).  After each
step, a truthy status aborts the remaining steps. -/
def execGitFlow (run : GitStep → Option Int) : List GitStep :=
  if jsStatusTruthy (handleSpawnResponse (run .checkout)) then [.checkout]
  else if jsStatusTruthy (handleSpawnResponse (run .pull)) then
    [.checkout, .pull]
  else if jsStatusTruthy (handleSpawnResponse (run .bumpVersion)) then
    [.checkout, .pull, .bumpVersion]
  else
    [.checkout, .pull, .bumpVersion, .push]

/-- `walkThroughFolders` from `update-version.ts`: iterates over the
discovered service directories in order, running the whole git flow for each;
the result is the combined trace of (directory, step) invocations. -/
def walkThroughFolders (run : String → GitStep → Option Int) :
    List String → List (String × GitStep)
  | [] => []
  | p :: rest =>
    ((execGitFlow (run p)).map (fun st => (p, st))) ++ walkThroughFolders run rest

theorem walkThroughFolders_append (run : String → GitStep → Option Int)
    (xs ys : List String) :
    walkThroughFolders run (xs ++ ys) =
      walkThroughFolders run xs ++ walkThroughFolders run ys := by
  induction xs with
  | nil => simp [walkThroughFolders]
  | cons p rest ih => simp [walkThroughFolders, ih]

theorem execGitFlow_checkout_fails (run : GitStep → Option Int) (s : Int)
    (hs : run .checkout = some s) (hnz : s ≠ 0) :
    execGitFlow run = [GitStep.checkout] := by
  unfold execGitFlow
  simp [handleSpawnResponse, jsStatusTruthy, hs, hnz]

/- ----------------------------------------------------------------------
   service create handler (travis.ts bundle, lines 946-972)
   ---------------------------------------------------------------------- -/

/-- The stages of the `service create` pipeline, in the order the handler
awaits them. -/
inductive CreateStage where
  | buildFromTemplate
  | createGitRepo
  | buildDockerCi
  | installPackages
  | commit
deriving DecidableEq, Repr

/-- Observable outcome of one run of the `service create` handler:
which stages were invoked (in order, including a stage that threw),
whether the pipeline completed, and whether the cleanup `rmdir` ran. -/
structure CreateOutcome where
  invoked : List CreateStage
  success : Bool
  cleanedUp : Bool
deriving DecidableEq, Repr

/-- The stage plan of the handler: the three unconditional stages, then
`installPackages` unless `--no-install` was given, then `commit` when the
`gitRepoInitialized` flag was set by `createGitRepo`. -/
def createStagePlan (noInstall gitRepoCreated : Bool) : List CreateStage :=
  [.buildFromTemplate, .createGitRepo, .buildDockerCi]
    ++ (if noInstall then [] else [.installPackages])
    ++ (if gitRepoCreated then [.commit] else [])

/-- Runs stages in order until one throws (`ok st = false`); returns the
stages invoked (the throwing stage included) and whether all succeeded. -/
def runStages (ok : CreateStage → Bool) : List CreateStage → List CreateStage × Bool
  | [] => ([], true)
  | st :: rest =>
    if ok st then
      let r := runStages ok rest
      (st :: r.1, r.2)
    else ([st], false)

/-- Literal embedding of the condition guarding the cleanup in the handler
catch block: `argv.path && (argv.path !== '.' || argv.path !== './')`.
An empty string is falsy in JavaScript, hence the first conjunct. -/
def cleanupTriggered (path : String) : Bool :=
  (path != "") && ((path != ".") || (path != "./"))

/-- The `service create` handler: runs the stage plan until a stage throws;
on a throw, the cleanup `rmdir(resolve(argv.path))` runs exactly when
`cleanupTriggered` holds for the path argument.  The oracle `ok` tells
whether each stage completes without throwing. -/
def createHandler (ok : CreateStage → Bool) (noInstall gitRepoCreated : Bool)
    (path : String) : CreateOutcome :=
  let r := runStages ok (createStagePlan noInstall gitRepoCreated)
  { invoked := r.1, success := r.2, cleanedUp := !r.2 && cleanupTriggered path }

/- ----------------------------------------------------------------------
   lib/travis.ts: trySyncBuilds and enableBuilds
   ---------------------------------------------------------------------- -/

/-- `trySyncBuilds` from `lib/travis.ts`.  The oracle `attempt k` tells
whether the k-th call of `travis.users.sync.post()` completes without
throwing.  On success the function sleeps and returns `true`; on failure it
retries (incrementing the retry counter) while `retry < maxRetries`, and
returns `false` once the retries are exhausted.  Sleeping has no observable
effect in this model. -/
def trySyncBuilds (attempt : Nat → Bool) (retry maxRetries : Nat) : Bool :=
  if attempt retry then true
  else if retry < maxRetries then trySyncBuilds attempt (retry + 1) maxRetries
  else false
termination_by maxRetries + 1 - retry
decreasing_by omega

/-- Instrumented variant of `trySyncBuilds` that additionally counts how many
sync attempts (initial attempt plus retries) are performed. -/
def trySyncBuildsCount (attempt : Nat → Bool) (retry maxRetries : Nat) :
    Bool × Nat :=
  if attempt retry then (true, 1)
  else if retry < maxRetries then
    let r := trySyncBuildsCount attempt (retry + 1) maxRetries
    (r.1, r.2 + 1)
  else (false, 1)
termination_by maxRetries + 1 - retry
decreasing_by omega

theorem trySyncBuildsCount_fst (attempt : Nat → Bool) (retry maxRetries : Nat) :
    (trySyncBuildsCount attempt retry maxRetries).1 =
      trySyncBuilds attempt retry maxRetries := by
  unfold trySyncBuildsCount trySyncBuilds
  split
  · rfl
  · split
    · exact trySyncBuildsCount_fst attempt (retry + 1) maxRetries
    · rfl
termination_by maxRetries + 1 - retry
decreasing_by omega

theorem trySyncBuildsCount_le (attempt : Nat → Bool) (retry maxRetries : Nat) :
    (trySyncBuildsCount attempt retry maxRetries).2 ≤ maxRetries + 1 - retry ∨
      (trySyncBuildsCount attempt retry maxRetries).2 = 1 := by
  unfold trySyncBuildsCount
  split
  · right; rfl
  · split
    · rename_i hna hlt
      rcases trySyncBuildsCount_le attempt (retry + 1) maxRetries with h | h <;>
        · left
          show (trySyncBuildsCount attempt (retry + 1) maxRetries).2 + 1 ≤
            maxRetries + 1 - retry
          omega
    · right; rfl
termination_by maxRetries + 1 - retry
decreasing_by omega

theorem trySyncBuilds_true_iff (attempt : Nat → Bool) (retry maxRetries : Nat) :
    trySyncBuilds attempt retry maxRetries = true ↔
      ∃ k, retry ≤ k ∧ k ≤ max retry maxRetries ∧ attempt k = true := by
  unfold trySyncBuilds
  split
  · rename_i h
    simp only [true_iff]
    exact ⟨retry, le_refl _, Nat.le_max_left _ _, h⟩
  · rename_i h
    split
    · rename_i hlt
      rw [trySyncBuilds_true_iff attempt (retry + 1) maxRetries]
      constructor
      · rintro ⟨k, hk1, hk2, hk3⟩
        exact ⟨k, by omega, by omega, hk3⟩
      · rintro ⟨k, hk1, hk2, hk3⟩
        refine ⟨k, ?_, by omega, hk3⟩
        rcases Nat.eq_or_lt_of_le hk1 with rfl | h'
        · exact absurd hk3 h
        · omega
    · rename_i hge
      constructor
      · intro hf
        exact absurd hf Bool.false_ne_true
      · rintro ⟨k, hk1, hk2, hk3⟩
        have : k = retry := by omega
        subst this
        exact absurd hk3 h
termination_by maxRetries + 1 - retry
decreasing_by omega

/-- The Travis hook records returned by `travis.hooks.get()`, as far as
`enableBuilds` inspects them. -/
structure TravisHook where
  id : Nat
  owner_name : String
  name : String
  active : Bool
deriving DecidableEq, Repr

/-- `enableBuilds` from `lib/travis.ts`, modelled as a pure function of the
sync-attempt oracle and of the fetched hook list.  It returns the boolean
result together with the id of the hook activated by the `put` call, if any.
As in the source, the result of `trySyncBuilds` (called with the default
arguments `retry = 0`, `maxRetries = 3`) is discarded. -/
def enableBuilds (attempt : Nat → Bool) (hooks : List TravisHook)
    (owner repo : String) : Bool × Option Nat :=
  let _sync := trySyncBuilds attempt 0 3
  match hooks.find? (fun h => h.owner_name == owner && h.name == repo) with
  | none => (false, none)
  | some h => if h.active then (true, none) else (true, some h.id)

/- ----------------------------------------------------------------------
   lib/node.ts: toTravisTags
   ---------------------------------------------------------------------- -/

/-- The for-loop of `toTravisTags` in `lib/node.ts`, which pushes Travis tags
onto `travisTags`.  The switch falls through from the `'stable'`/`'lts'`
cases (which push `'lts/*'`) into the `'latest'` case (which pushes
`'node'`); the default case pushes the tag itself. -/
def toTravisTagsLoop : List String → List String
  | [] => []
  | tag :: rest =>
    (if tag = "stable" ∨ tag = "lts" then ["lts/*", "node"]
     else if tag = "latest" then ["node"]
     else [tag]) ++ toTravisTagsLoop rest

/-- JavaScript `Array.prototype.indexOf` on string arrays: the index of the
first occurrence, or `-1` when absent. -/
def arrIndexOf (x : String) : List String → Int
  | [] => -1
  | a :: t =>
    if a = x then 0
    else
      let r := arrIndexOf x t
      if r = -1 then -1 else r + 1

/-- JavaScript `Array.prototype.filter` with an index-aware callback. -/
def filterIdx (f : Nat → String → Bool) : Nat → List String → List String
  | _, [] => []
  | i, a :: t => if f i a then a :: filterIdx f (i + 1) t else filterIdx f (i + 1) t

/-- `toTravisTags` from `lib/node.ts` on an array argument: builds the raw
tag list with the switch loop, then keeps each element whose index equals the
index of its first occurrence
(`travisTags.filter((tag, i) => travisTags.indexOf(tag) === i)`). -/
def toTravisTags (tags : List String) : List String :=
  let travisTags := toTravisTagsLoop tags
  filterIdx (fun i tag => arrIndexOf tag travisTags == (i : Int)) 0 travisTags

/-- Reference first-seen deduplication: scans the list keeping each element
the first time it is seen (`seen` accumulates every element already
traversed).  This definition follows the wording of the specification
("duplicates removed, preserving first-seen order") and is compared with the
source-level `toTravisTags` below. -/
def dedupFirstSeen (seen : List String) : List String → List String
  | [] => []
  | a :: t =>
    if a ∈ seen then dedupFirstSeen (seen ++ [a]) t
    else a :: dedupFirstSeen (seen ++ [a]) t

theorem arrIndexOf_cons_self (x : String) (t : List String) :
    arrIndexOf x (x :: t) = 0 := by
  simp [arrIndexOf]

theorem arrIndexOf_cons_ne (x a : String) (t : List String) (h : a ≠ x) :
    arrIndexOf x (a :: t) =
      if arrIndexOf x t = -1 then -1 else arrIndexOf x t + 1 := by
  simp [arrIndexOf, h]

theorem arrIndexOf_append_not_mem (x : String) (p t : List String)
    (hx : x ∉ p) : arrIndexOf x (p ++ x :: t) = (p.length : Int) := by
  induction p with
  | nil =>
    rw [List.nil_append, arrIndexOf_cons_self]
    simp
  | cons c p ih =>
    have hcx : c ≠ x := by
      intro h
      exact hx (by simp [h])
    have hxp : x ∉ p := fun h => hx (List.mem_cons_of_mem _ h)
    rw [List.cons_append, arrIndexOf_cons_ne x c _ hcx, ih hxp]
    have hne : ((p.length : Int)) ≠ -1 := by omega
    rw [if_neg hne]
    simp only [List.length_cons]
    push_cast
    ring

theorem arrIndexOf_append_mem (x : String) (p r : List String) (hx : x ∈ p) :
    arrIndexOf x (p ++ r) = arrIndexOf x p ∧
      0 ≤ arrIndexOf x p ∧ arrIndexOf x p < (p.length : Int) := by
  induction p with
  | nil => cases hx
  | cons c p ih =>
    by_cases hcx : c = x
    · subst hcx
      rw [List.cons_append, arrIndexOf_cons_self, arrIndexOf_cons_self]
      refine ⟨rfl, le_refl _, ?_⟩
      simp only [List.length_cons]
      push_cast
      omega
    · have hxp : x ∈ p := by
        rcases List.mem_cons.mp hx with h | h
        · exact absurd h.symm hcx
        · exact h
      obtain ⟨h1, h2, h3⟩ := ih hxp
      have hne : arrIndexOf x p ≠ -1 := by omega
      rw [List.cons_append, arrIndexOf_cons_ne x c _ hcx,
        arrIndexOf_cons_ne x c _ hcx, h1, if_neg hne]
      refine ⟨rfl, by omega, ?_⟩
      simp only [List.length_cons]
      push_cast
      omega

theorem filterIdx_eq_dedupFirstSeen (t : List String) : ∀ p : List String,
    filterIdx (fun i tag => arrIndexOf tag (p ++ t) == (i : Int)) p.length t =
      dedupFirstSeen p t := by
  induction t with
  | nil => intro p; rfl
  | cons a t ih =>
    intro p
    by_cases ha : a ∈ p
    · obtain ⟨h1, h2, h3⟩ := arrIndexOf_append_mem a p (a :: t) ha
      have hcond : (arrIndexOf a (p ++ a :: t) == ((p.length : Int))) = false := by
        rw [h1]
        simp only [beq_eq_false_iff_ne, ne_eq]
        omega
      simp only [filterIdx, dedupFirstSeen, hcond, if_false, if_pos ha,
        Bool.false_eq_true]
      rw [show p ++ a :: t = (p ++ [a]) ++ t by simp,
        show p.length + 1 = (p ++ [a]).length by simp]
      exact ih (p ++ [a])
    · have hcond : (arrIndexOf a (p ++ a :: t) == ((p.length : Int))) = true := by
        rw [arrIndexOf_append_not_mem a p t ha]
        simp
      simp only [filterIdx, dedupFirstSeen, hcond, if_true, if_neg ha]
      rw [show p ++ a :: t = (p ++ [a]) ++ t by simp,
        show p.length + 1 = (p ++ [a]).length by simp]
      rw [ih (p ++ [a])]

theorem dedupFirstSeen_sublist (t : List String) : ∀ seen : List String,
    (dedupFirstSeen seen t).Sublist t := by
  induction t with
  | nil => intro seen; exact List.Sublist.refl _
  | cons a t ih =>
    intro seen
    by_cases ha : a ∈ seen
    · simp only [dedupFirstSeen, if_pos ha]
      exact (ih (seen ++ [a])).cons a
    · simp only [dedupFirstSeen, if_neg ha]
      exact (ih (seen ++ [a])).cons₂ a

theorem dedupFirstSeen_nodup (t : List String) : ∀ seen : List String,
    (∀ x ∈ dedupFirstSeen seen t, x ∉ seen) ∧ (dedupFirstSeen seen t).Nodup := by
  induction t with
  | nil => intro seen; exact ⟨by simp [dedupFirstSeen], List.nodup_nil⟩
  | cons a t ih =>
    intro seen
    by_cases ha : a ∈ seen
    · obtain ⟨hmem, hnd⟩ := ih (seen ++ [a])
      simp only [dedupFirstSeen, if_pos ha]
      refine ⟨fun x hx hxs => hmem x hx ?_, hnd⟩
      exact List.mem_append_left _ hxs
    · obtain ⟨hmem, hnd⟩ := ih (seen ++ [a])
      simp only [dedupFirstSeen, if_neg ha]
      constructor
      · intro x hx hxs
        rcases List.mem_cons.mp hx with rfl | hx'
        · exact ha hxs
        · exact hmem x hx' (List.mem_append_left _ hxs)
      · refine List.nodup_cons.mpr ⟨fun hin => ?_, hnd⟩
        exact hmem a hin (by simp)

theorem toTravisTags_eq_dedupFirstSeen (tags : List String) :
    toTravisTags tags = dedupFirstSeen [] (toTravisTagsLoop tags) := by
  unfold toTravisTags
  have h := filterIdx_eq_dedupFirstSeen (toTravisTagsLoop tags) []
  simpa using h

/- ----------------------------------------------------------------------
   lib/node.ts: NodeVersion and nodeVersion
   ---------------------------------------------------------------------- -/

/-- The `NodeVersion` interface of `lib/node.ts`.  Strings are modelled as
`List Char`; the `lts` field has type `boolean | string` in the source and is
modelled as a sum. -/
structure NodeVersion where
  version : List Char
  date : List Char
  files : List (List Char)
  lts : Bool ⊕ List Char
  v8 : List Char
  npm : Option (List Char) := none
  uv : Option (List Char) := none
  zlib : Option (List Char) := none
  openssl : Option (List Char) := none
  modules : Option (List Char) := none
deriving DecidableEq, Repr

/-- JavaScript truthiness of `version.lts` (`boolean | string`): a boolean is
its own truth value, a string is truthy exactly when non-empty. -/
def jsLtsTruthy : Bool ⊕ List Char → Bool
  | .inl b => b
  | .inr s => decide (s ≠ [])

/-- `version.replace(/^v/, '')`: strips one leading letter v if present. -/
def stripLeadingV : List Char → List Char
  | 'v' :: rest => rest
  | s => s

/-- `nodeVersion` from `lib/node.ts`, with the catalog passed explicitly (the
source obtains it from `getNodeVersions()`, a process-lifetime cache of the
nodejs.org index sorted descending by `semverCompare`).  The default branch
tests the regex built from the tag with dots escaped against the start of
each version string; for the digit-and-dot tags the command accepts, this is
a literal-text match of the tag after a leading letter v, which is how it is
modelled here. -/
def nodeVersionOn (versions : List NodeVersion) (tag : List Char) : List Char :=
  if tag = "node".toList ∨ tag = "latest".toList then
    stripLeadingV
      (match versions.head? with
       | some v => v.version
       | none => [])
  else if tag = "stable".toList ∨ tag = "lts".toList ∨ tag = "lts/*".toList then
    stripLeadingV
      (match versions.find? (fun v => jsLtsTruthy v.lts) with
       | some v => v.version
       | none => [])
  else
    stripLeadingV
      (match versions.find? (fun v => ('v' :: tag).isPrefixOf v.version) with
       | some v => v.version
       | none => [])

/- ----------------------------------------------------------------------
   lib/node.ts: semverCompare (model of the npm semver package precedence)
   ---------------------------------------------------------------------- -/

/-- A parsed semantic version as compared by the npm `semver` package used in
`lib/node.ts`: major, minor and patch numbers plus the dot-separated
pre-release identifiers (numeric or alphanumeric).  Build metadata is not
represented because SemVer precedence ignores it. -/
structure SemVer where
  major : Nat
  minor : Nat
  patch : Nat
  prerelease : List (Nat ⊕ List Char) := []
deriving DecidableEq, Repr

/-- A comparator that is a strict total order: `eq` exactly on equal
arguments, antisymmetric via `swap`, and transitive on `lt`. -/
structure IsCmp {α : Type} (f : α → α → Ordering) : Prop where
  eq_iff : ∀ a b, f a b = .eq ↔ a = b
  swap_eq : ∀ a b, (f a b).swap = f b a
  lt_trans : ∀ a b c, f a b = .lt → f b c = .lt → f a c = .lt

/-- Three-way comparison induced by a linear order. -/
def linCmp {α : Type} [LinearOrder α] (a b : α) : Ordering :=
  if a < b then .lt else if b < a then .gt else .eq

theorem isCmp_linCmp {α : Type} [LinearOrder α] : IsCmp (linCmp (α := α)) := by
  constructor
  · intro a b
    unfold linCmp
    rcases lt_trichotomy a b with h | h | h
    · simp [h, ne_of_lt h]
    · subst h
      simp
    · simp [lt_asymm h, h, ne_of_gt h]
  · intro a b
    unfold linCmp
    rcases lt_trichotomy a b with h | h | h
    · simp [h, lt_asymm h, Ordering.swap]
    · subst h
      simp [lt_irrefl, Ordering.swap]
    · simp [h, lt_asymm h, Ordering.swap]
  · intro a b c hab hbc
    unfold linCmp at *
    have h1 : a < b := by
      rcases lt_trichotomy a b with h | h | h
      · exact h
      · subst h
        simp [lt_irrefl] at hab
      · simp [lt_asymm h, h] at hab
    have h2 : b < c := by
      rcases lt_trichotomy b c with h | h | h
      · exact h
      · subst h
        simp [lt_irrefl] at hbc
      · simp [lt_asymm h, h] at hbc
    simp [lt_trans h1 h2]

/-- Numeric comparison of version numbers and numeric pre-release ids. -/
def natCmp (a b : Nat) : Ordering := linCmp a b

/-- ASCII comparison of single characters. -/
def charCmp (a b : Char) : Ordering := linCmp a b

/-- Lexicographic comparison of lists by a base comparator; a proper prefix
of a longer list compares lower. -/
def listCmp {α : Type} (f : α → α → Ordering) : List α → List α → Ordering
  | [], [] => .eq
  | [], _ :: _ => .lt
  | _ :: _, [] => .gt
  | a :: as, b :: bs => (f a b).then (listCmp f as bs)

theorem listCmp_eq_iff {α : Type} (f : α → α → Ordering) (hf : IsCmp f) :
    ∀ a b : List α, listCmp f a b = .eq ↔ a = b := by
  intro a
  induction a with
  | nil =>
    intro b
    cases b <;> simp [listCmp]
  | cons x as ih =>
    intro b
    cases b with
    | nil => simp [listCmp]
    | cons y bs =>
      simp [listCmp, Ordering.then_eq_eq, hf.eq_iff, ih bs]

theorem listCmp_swap {α : Type} (f : α → α → Ordering) (hf : IsCmp f) :
    ∀ a b : List α, (listCmp f a b).swap = listCmp f b a := by
  intro a
  induction a with
  | nil =>
    intro b
    cases b <;> rfl
  | cons x as ih =>
    intro b
    cases b with
    | nil => rfl
    | cons y bs =>
      simp only [listCmp, Ordering.swap_then, hf.swap_eq, ih bs]

theorem listCmp_lt_trans {α : Type} (f : α → α → Ordering) (hf : IsCmp f) :
    ∀ a b c : List α, listCmp f a b = .lt → listCmp f b c = .lt →
      listCmp f a c = .lt := by
  intro a
  induction a with
  | nil =>
    intro b c hab hbc
    cases b with
    | nil => cases hab
    | cons y bs =>
      cases c with
      | nil => cases hbc
      | cons z cs => rfl
  | cons x as ih =>
    intro b c hab hbc
    cases b with
    | nil => cases hab
    | cons y bs =>
      cases c with
      | nil => cases hbc
      | cons z cs =>
        simp only [listCmp, Ordering.then_eq_lt] at hab hbc ⊢
        rcases hab with h1 | ⟨h1, h1'⟩
        · rcases hbc with h2 | ⟨h2, h2'⟩
          · exact Or.inl (hf.lt_trans x y z h1 h2)
          · have hy : y = z := (hf.eq_iff y z).mp h2
            subst hy
            exact Or.inl h1
        · have hx : x = y := (hf.eq_iff x y).mp h1
          subst hx
          rcases hbc with h2 | ⟨h2, h2'⟩
          · exact Or.inl h2
          · have hz : x = z := (hf.eq_iff x z).mp h2
            subst hz
            exact Or.inr ⟨h2, ih bs cs h1' h2'⟩

/-- Comparison of single pre-release identifiers: numeric identifiers compare
numerically and always have lower precedence than alphanumeric ones;
alphanumeric identifiers compare in ASCII order. -/
def preIdCmp : Nat ⊕ List Char → Nat ⊕ List Char → Ordering
  | .inl m, .inl n => natCmp m n
  | .inl _, .inr _ => .lt
  | .inr _, .inl _ => .gt
  | .inr s, .inr t => listCmp charCmp s t

theorem isCmp_natCmp : IsCmp natCmp := isCmp_linCmp

theorem isCmp_charCmp : IsCmp charCmp := isCmp_linCmp

theorem isCmp_preIdCmp : IsCmp preIdCmp := by
  constructor
  · rintro (m | s) (n | t)
    · simp [preIdCmp, isCmp_natCmp.eq_iff]
    · simp [preIdCmp]
    · simp [preIdCmp]
    · simp [preIdCmp, listCmp_eq_iff charCmp isCmp_charCmp]
  · rintro (m | s) (n | t)
    · exact isCmp_natCmp.swap_eq m n
    · rfl
    · rfl
    · exact listCmp_swap charCmp isCmp_charCmp s t
  · rintro (m | s) (n | t) (k | u) hab hbc
    · exact isCmp_natCmp.lt_trans m n k hab hbc
    · rfl
    · cases hbc
    · rfl
    · cases hab
    · cases hab
    · cases hbc
    · exact listCmp_lt_trans charCmp isCmp_charCmp s t u hab hbc

/-- Comparison of pre-release identifier lists in SemVer precedence: a
version with no pre-release identifiers has higher precedence than one with
identifiers; two non-empty identifier lists compare lexicographically, a
proper prefix comparing lower. -/
def preCmp : List (Nat ⊕ List Char) → List (Nat ⊕ List Char) → Ordering
  | [], [] => .eq
  | [], _ :: _ => .gt
  | _ :: _, [] => .lt
  | a :: as, b :: bs => listCmp preIdCmp (a :: as) (b :: bs)

theorem isCmp_preCmp : IsCmp preCmp := by
  constructor
  · rintro (_ | ⟨a, as⟩) (_ | ⟨b, bs⟩) <;>
      simp [preCmp, listCmp_eq_iff preIdCmp isCmp_preIdCmp]
  · rintro (_ | ⟨a, as⟩) (_ | ⟨b, bs⟩)
    · rfl
    · rfl
    · rfl
    · exact listCmp_swap preIdCmp isCmp_preIdCmp _ _
  · rintro (_ | ⟨a, as⟩) (_ | ⟨b, bs⟩) (_ | ⟨c, cs⟩) hab hbc
    · cases hab
    · cases hab
    · cases hab
    · cases hab
    · cases hbc
    · cases hbc
    · rfl
    · exact listCmp_lt_trans preIdCmp isCmp_preIdCmp _ _ _ hab hbc

/-- Lexicographic pairing of two comparators. -/
def prodCmp {α β : Type} (f : α → α → Ordering) (g : β → β → Ordering)
    (x y : α × β) : Ordering :=
  (f x.1 y.1).then (g x.2 y.2)

theorem isCmp_prodCmp {α β : Type} (f : α → α → Ordering)
    (g : β → β → Ordering) (hf : IsCmp f) (hg : IsCmp g) :
    IsCmp (prodCmp f g) := by
  constructor
  · intro a b
    simp [prodCmp, Ordering.then_eq_eq, hf.eq_iff, hg.eq_iff, Prod.ext_iff]
  · intro a b
    simp only [prodCmp, Ordering.swap_then, hf.swap_eq, hg.swap_eq]
  · intro a b c hab hbc
    simp only [prodCmp, Ordering.then_eq_lt] at hab hbc ⊢
    rcases hab with h1 | ⟨h1, h1'⟩
    · rcases hbc with h2 | ⟨h2, h2'⟩
      · exact Or.inl (hf.lt_trans _ _ _ h1 h2)
      · have hy : b.1 = c.1 := (hf.eq_iff _ _).mp h2
        rw [← hy]
        exact Or.inl h1
    · have hx : a.1 = b.1 := (hf.eq_iff _ _).mp h1
      rw [hx]
      rcases hbc with h2 | ⟨h2, h2'⟩
      · exact Or.inl h2
      · have hz : b.1 = c.1 := (hf.eq_iff _ _).mp h2
        exact Or.inr ⟨h2, hg.lt_trans _ _ _ h1' h2'⟩

theorem isCmp_comap {α β : Type} (f : β → β → Ordering) (hf : IsCmp f)
    (h : α → β) (hinj : Function.Injective h) :
    IsCmp (fun a b => f (h a) (h b)) := by
  constructor
  · intro a b
    rw [hf.eq_iff]
    exact ⟨fun e => hinj e, fun e => by rw [e]⟩
  · intro a b
    exact hf.swap_eq _ _
  · intro a b c
    exact hf.lt_trans _ _ _

/-- SemVer precedence comparison: major, minor, patch numerically, then the
pre-release rule.  This is the precedence order implemented by the npm
`semver` package underlying `semver.gt` and `semver.lt`. -/
def semverCmp (a b : SemVer) : Ordering :=
  prodCmp natCmp (prodCmp natCmp (prodCmp natCmp preCmp))
    (a.major, (a.minor, (a.patch, a.prerelease)))
    (b.major, (b.minor, (b.patch, b.prerelease)))

theorem isCmp_semverCmp : IsCmp semverCmp := by
  have hinj : Function.Injective
      (fun v : SemVer => (v.major, (v.minor, (v.patch, v.prerelease)))) := by
    intro a b hab
    cases a
    cases b
    simp only [Prod.mk.injEq] at hab
    obtain ⟨h1, h2, h3, h4⟩ := hab
    subst h1
    subst h2
    subst h3
    subst h4
    rfl
  exact isCmp_comap _
    (isCmp_prodCmp _ _ isCmp_linCmp
      (isCmp_prodCmp _ _ isCmp_linCmp
        (isCmp_prodCmp _ _ isCmp_linCmp isCmp_preCmp)))
    _ hinj

/-- `semver.gt(a, b)` as used in `semverCompare`. -/
def semverGtb (a b : SemVer) : Bool := semverCmp a b == .gt

/-- `semver.lt(a, b)` as used in `semverCompare`. -/
def semverLtb (a b : SemVer) : Bool := semverCmp a b == .lt

/-- `semverCompare` from `lib/node.ts`:
`semver.gt(a, b) ? -1 : semver.lt(a, b) ? 1 : 0`. -/
def semverCompare (a b : SemVer) : Int :=
  if semverGtb a b then -1 else if semverLtb a b then 1 else 0

theorem semverCompare_eq_match (a b : SemVer) :
    semverCompare a b =
      match semverCmp a b with
      | .gt => -1
      | .lt => 1
      | .eq => 0 := by
  unfold semverCompare semverGtb semverLtb
  rcases h : semverCmp a b with _ | _ | _ <;> rfl

/- ----------------------------------------------------------------------
   service create: compileTemplateFile / compileTemplate
   ---------------------------------------------------------------------- -/

/-- JavaScript `text.replace(new RegExp(pattern, 'g'), rep)` for a pattern
consisting of literal characters: scans left to right, replacing each
non-overlapping occurrence of `pat`, continuing after the replaced segment
(the replacement text is not rescanned).  The patterns used by the template
engine (a percent sign followed by a tag name) are never empty; an empty
pattern is returned unchanged here to keep the function total. -/
def replaceAll (pat rep : List Char) : List Char → List Char
  | [] => []
  | c :: rest =>
    if h : pat ≠ [] ∧ pat.isPrefixOf (c :: rest) then
      rep ++ replaceAll pat rep ((c :: rest).drop pat.length)
    else c :: replaceAll pat rep rest
termination_by s => s.length
decreasing_by
  · have hlen : pat.length ≤ (c :: rest).length :=
      (List.isPrefixOf_iff_prefix.mp h.2).length_le
    have hpos : 0 < pat.length := List.length_pos.mpr h.1
    simp only [List.length_drop]
    simp only [List.length_cons] at *
    omega
  · simp

/-- `compileTemplateFile` from the `service create` command: folds over the
tag set in insertion order, globally replacing the percent-prefixed tag name
with the tag value. -/
def compileTemplateFile (text : List Char) (tags : List (List Char × List Char)) :
    List Char :=
  tags.foldl (fun t kv => replaceAll ('%' :: kv.1) kv.2 t) text

/-- A filesystem entry, as walked by `compileTemplate`: a regular file with
contents, or a directory with a list of entries. -/
inductive FsEntry where
  | file (name : String) (content : List Char)
  | dir (name : String) (entries : List FsEntry)

mutual
/-- `compileTemplate` from the `service create` command, acting on one
directory entry: a file is rewritten in place with `compileTemplateFile`;
a directory is recursed into. -/
def compileEntry (tags : List (List Char × List Char)) : FsEntry → FsEntry
  | .file n c => .file n (compileTemplateFile c tags)
  | .dir n es => .dir n (compileEntries tags es)
/-- `compileTemplate` over the entry list of one directory. -/
def compileEntries (tags : List (List Char × List Char)) :
    List FsEntry → List FsEntry
  | [] => []
  | e :: es => compileEntry tags e :: compileEntries tags es
end

mutual
/-- All regular files of an entry, as (path, contents) pairs, where the path
is the list of names from the given root down to the file. -/
def filesOf (pre : List String) : FsEntry → List (List String × List Char)
  | .file n c => [(pre ++ [n], c)]
  | .dir n es => filesOfList (pre ++ [n]) es
/-- All regular files under a list of entries. -/
def filesOfList (pre : List String) : List FsEntry → List (List String × List Char)
  | [] => []
  | e :: es => filesOf pre e ++ filesOfList pre es
end

mutual
theorem filesOf_compileEntry (tags : List (List Char × List Char))
    (t : FsEntry) (pre : List String) :
    filesOf pre (compileEntry tags t) =
      (filesOf pre t).map (fun pc => (pc.1, compileTemplateFile pc.2 tags)) := by
  cases t with
  | file n c => simp [filesOf, compileEntry]
  | dir n es =>
    show filesOfList (pre ++ [n]) (compileEntries tags es) = _
    rw [filesOfList_compileEntries tags es (pre ++ [n])]
    rfl
theorem filesOfList_compileEntries (tags : List (List Char × List Char))
    (es : List FsEntry) (pre : List String) :
    filesOfList pre (compileEntries tags es) =
      (filesOfList pre es).map (fun pc => (pc.1, compileTemplateFile pc.2 tags)) := by
  cases es with
  | nil => simp [filesOfList, compileEntries]
  | cons e es =>
    show filesOf pre (compileEntry tags e) ++
        filesOfList pre (compileEntries tags es) = _
    rw [filesOf_compileEntry tags e pre, filesOfList_compileEntries tags es pre]
    simp [filesOfList]
end

/- ----------------------------------------------------------------------
   service create: updateLicenseText
   ---------------------------------------------------------------------- -/

/-- JavaScript `text.replace(pat, rep)` with a string pattern: replaces only
the first occurrence of `pat`, leaving the rest of the text (including any
further occurrences) unchanged.  With an empty pattern the replacement is
inserted at the start, as in JavaScript. -/
def replaceFirst (pat rep : List Char) : List Char → List Char
  | [] => if pat.isEmpty then rep else []
  | c :: rest =>
    if pat.isPrefixOf (c :: rest) then rep ++ (c :: rest).drop pat.length
    else c :: replaceFirst pat rep rest

/-- Whether `pat` occurs as a contiguous segment of `s`. -/
def containsSub (pat : List Char) : List Char → Bool
  | [] => pat.isEmpty
  | c :: rest => pat.isPrefixOf (c :: rest) || containsSub pat rest

/-- `updateLicenseText` from the `service create` command: for each key of
the substitution object, in insertion order (`year`, `fullname`, `email`,
`project`, `project_url`), replaces the first occurrence of the bracketed
key with the corresponding value.  The year computed from the current date
in the source is passed as a parameter here. -/
def updateLicenseText (text author email serviceName homepage year : List Char) :
    List Char :=
  [("year".toList, year), ("fullname".toList, author), ("email".toList, email),
    ("project".toList, serviceName), ("project_url".toList, homepage)].foldl
    (fun t kv => replaceFirst ('[' :: (kv.1 ++ [']'])) kv.2 t) text

theorem replaceFirst_not_contains (pat rep s : List Char)
    (h : containsSub pat s = false) : replaceFirst pat rep s = s := by
  induction s with
  | nil =>
    simp only [containsSub] at h
    simp [replaceFirst, h]
  | cons c rest ih =>
    simp only [containsSub, Bool.or_eq_false_iff] at h
    simp only [replaceFirst, h.1, if_false, Bool.false_eq_true]
    rw [ih h.2]

theorem replaceFirst_at_first_occurrence (pat rep : List Char) (pre post : List Char)
    (hfirst : ∀ i < pre.length, pat.isPrefixOf ((pre ++ pat ++ post).drop i) = false) :
    replaceFirst pat rep (pre ++ pat ++ post) = pre ++ rep ++ post := by
  induction pre with
  | nil =>
    cases hp : pat with
    | nil =>
      subst hp
      cases post with
      | nil => simp [replaceFirst]
      | cons c rest => simp [replaceFirst, List.isPrefixOf]
    | cons p ps =>
      subst hp
      have hpp : (p :: ps).isPrefixOf (p :: (ps ++ post)) = true := by
        rw [List.isPrefixOf_iff_prefix]
        exact ⟨post, by simp⟩
      show replaceFirst (p :: ps) rep (p :: (ps ++ post)) = rep ++ post
      simp only [replaceFirst, hpp, if_true]
      simp only [List.length_cons, List.drop_succ_cons, List.drop_left]
  | cons x pre ih =>
    have h0 := hfirst 0 (by simp)
    rw [List.drop_zero] at h0
    have hstep : ∀ i < pre.length,
        pat.isPrefixOf ((pre ++ pat ++ post).drop i) = false := by
      intro i hi
      have h1 := hfirst (i + 1) (by simp only [List.length_cons]; omega)
      rw [List.cons_append, List.cons_append, List.drop_succ_cons] at h1
      exact h1
    have h0' : pat.isPrefixOf (x :: (pre ++ pat ++ post)) = false := by
      simp only [List.cons_append] at h0
      exact h0
    show replaceFirst pat rep (x :: (pre ++ pat ++ post)) = x :: (pre ++ rep ++ post)
    simp only [replaceFirst, h0', Bool.false_eq_true, if_false]
    rw [ih hstep]

/- ----------------------------------------------------------------------
   Claim theorems
   ---------------------------------------------------------------------- -/

theorem mem_walkThroughFolders (run : String → GitStep → Option Int)
    (paths : List String) (q : String) (st : GitStep) :
    (q, st) ∈ walkThroughFolders run paths ↔
      q ∈ paths ∧ st ∈ execGitFlow (run q) := by
  induction paths with
  | nil => simp [walkThroughFolders]
  | cons p rest ih =>
    simp only [walkThroughFolders, List.mem_append, List.mem_map, ih,
      List.mem_cons]
    constructor
    · rintro (⟨s', hs', heq⟩ | ⟨hq, hst⟩)
      · rw [Prod.mk.injEq] at heq
        obtain ⟨rfl, rfl⟩ := heq
        exact ⟨Or.inl rfl, hs'⟩
      · exact ⟨Or.inr hq, hst⟩
    · rintro ⟨hq | hq, hst⟩
      · subst hq
        exact Or.inl ⟨st, hst, rfl⟩
      · exact Or.inr ⟨hq, hst⟩

/-- C2: in the version-update flow, for every service directory whose git
checkout step reports a non-zero exit status, the PULL, BUMP_VERSION and
PUSH steps are never invoked for that directory, and every remaining
discovered directory is still processed independently afterwards. -/
theorem claim_C2_checkout_failure_skips_rest_and_continues
    (run : String → GitStep → Option Int) (before after : List String)
    (p : String) (s : Int) (hs : run p .checkout = some s) (hnz : s ≠ 0) :
    execGitFlow (run p) = [GitStep.checkout] ∧
    (∀ st : GitStep, st ≠ GitStep.checkout →
      (p, st) ∉ walkThroughFolders run (before ++ p :: after)) ∧
    walkThroughFolders run (before ++ p :: after) =
      walkThroughFolders run before ++ [(p, GitStep.checkout)] ++
        walkThroughFolders run after := by
  have h1 : execGitFlow (run p) = [GitStep.checkout] :=
    execGitFlow_checkout_fails (run p) s hs hnz
  refine ⟨h1, ?_, ?_⟩
  · intro st hst hmem
    rw [mem_walkThroughFolders] at hmem
    rw [h1] at hmem
    simp only [List.mem_singleton] at hmem
    exact hst hmem.2
  · rw [walkThroughFolders_append run before (p :: after)]
    simp only [walkThroughFolders, h1, List.map_cons, List.map_nil,
      List.append_assoc, List.singleton_append]

/-- Witness for C2 at a concrete run: directory svcB fails its checkout with
status 1 while svcA and svcC run all four steps. -/
theorem claim_C2_witness :
    walkThroughFolders
      (fun q st =>
        if q = "svcB" ∧ st = GitStep.checkout then some 1 else some 0)
      ["svcA", "svcB", "svcC"] =
      [("svcA", GitStep.checkout), ("svcA", .pull), ("svcA", .bumpVersion),
       ("svcA", .push), ("svcB", .checkout), ("svcC", .checkout),
       ("svcC", .pull), ("svcC", .bumpVersion), ("svcC", .push)] := by
  have h := claim_C2_checkout_failure_skips_rest_and_continues
    (fun q st =>
      if q = "svcB" ∧ st = GitStep.checkout then some 1 else some 0)
    ["svcA"] ["svcC"] "svcB" 1 (by decide) (by decide)
  rw [show (["svcA", "svcB", "svcC"] : List String) =
      ["svcA"] ++ "svcB" :: ["svcC"] from rfl, h.2.2]
  decide

/-- C3 (code bug): the cleanup guard
`argv.path && (argv.path !== '.' || argv.path !== './')` is a tautology for
every non-empty path, so after a stage of the service-creation pipeline
throws, the generated directory is deleted even when the path argument is
the current directory; the remaining stages are correctly skipped. -/
theorem claim_C3_cleanup_runs_even_for_current_directory :
    (createHandler (fun _ => false) false false ".").cleanedUp = true ∧
    (createHandler (fun _ => false) false false "./").cleanedUp = true ∧
    (createHandler (fun _ => false) false false ".").invoked =
      [CreateStage.buildFromTemplate] ∧
    (createHandler (fun _ => false) false false ".").success = false ∧
    cleanupTriggered "." = true ∧ cleanupTriggered "./" = true := by
  decide

/-- C4: `toTravisTags(["stable","latest"])` returns exactly
`["lts/*","node"]`; for every input list the output has no duplicates and is
the first-seen-order deduplication of the pushed tag sequence (in
particular, it is a sublist of that sequence, so relative order is
preserved). -/
theorem claim_C4_toTravisTags_dedup_first_seen :
    toTravisTags ["stable", "latest"] = ["lts/*", "node"] ∧
    ∀ tags : List String,
      (toTravisTags tags).Nodup ∧
      (toTravisTags tags).Sublist (toTravisTagsLoop tags) ∧
      toTravisTags tags = dedupFirstSeen [] (toTravisTagsLoop tags) := by
  refine ⟨by decide, fun tags => ?_⟩
  have he := toTravisTags_eq_dedupFirstSeen tags
  refine ⟨?_, ?_, he⟩
  · rw [he]
    exact (dedupFirstSeen_nodup (toTravisTagsLoop tags) []).2
  · rw [he]
    exact dedupFirstSeen_sublist (toTravisTagsLoop tags) []

/-- C10: for the single-element inputs `["stable"]` and `["lts"]`,
`toTravisTags` returns `["lts/*","node"]`: the switch case for stable/lts
pushes `lts/*` and then falls through into the latest case, which also
pushes `node`. -/
theorem claim_C10_lone_stable_or_lts_yields_both_tags :
    toTravisTags ["stable"] = ["lts/*", "node"] ∧
    toTravisTags ["lts"] = ["lts/*", "node"] ∧
    toTravisTagsLoop ["stable"] = ["lts/*", "node"] ∧
    toTravisTagsLoop ["lts"] = ["lts/*", "node"] := by
  decide

/-- C9: `trySyncBuilds` terminates for every input (it is a total function
of the attempt oracle): starting from retry 0 it performs at most
`maxRetries + 1` sync attempts in total, returns `true` exactly when some
attempt among the first `maxRetries + 1` succeeds (and as soon as an attempt
succeeds, it returns `true` having made no further attempts), and returns
`false` once the retry bound is exhausted. -/
theorem claim_C9_trySyncBuilds_bounded_retry :
    (∀ (attempt : Nat → Bool) (maxRetries : Nat),
      (trySyncBuilds attempt 0 maxRetries = true ↔
        ∃ k, k ≤ maxRetries ∧ attempt k = true) ∧
      (trySyncBuildsCount attempt 0 maxRetries).2 ≤ maxRetries + 1 ∧
      (trySyncBuildsCount attempt 0 maxRetries).1 =
        trySyncBuilds attempt 0 maxRetries) ∧
    (∀ (attempt : Nat → Bool) (retry maxRetries : Nat),
      attempt retry = true →
      trySyncBuilds attempt retry maxRetries = true ∧
      (trySyncBuildsCount attempt retry maxRetries).2 = 1) := by
  constructor
  · intro attempt maxRetries
    refine ⟨?_, ?_, trySyncBuildsCount_fst attempt 0 maxRetries⟩
    · rw [trySyncBuilds_true_iff]
      constructor
      · rintro ⟨k, _, hk2, hk3⟩
        refine ⟨k, ?_, hk3⟩
        simpa using hk2
      · rintro ⟨k, hk1, hk3⟩
        exact ⟨k, Nat.zero_le _, by simpa using hk1, hk3⟩
    · rcases trySyncBuildsCount_le attempt 0 maxRetries with h | h <;> omega
  · intro attempt retry maxRetries h
    constructor
    · unfold trySyncBuilds
      simp [h]
    · unfold trySyncBuildsCount
      simp [h]

/-- Witness for C9: with an oracle that succeeds immediately, the sync
returns true after a single attempt. -/
theorem claim_C9_witness :
    trySyncBuilds (fun _ => true) 0 5 = true ∧
    (trySyncBuildsCount (fun _ => true) 0 5).2 = 1 :=
  claim_C9_trySyncBuilds_bounded_retry.2 (fun _ => true) 0 5 rfl

/-- Counterexample to C1 as stated: with a sync oracle that never succeeds
(`trySyncBuilds` returns false) but a matching active hook present,
`enableBuilds` still returns `true`, because the source discards the result
of `trySyncBuilds`. -/
theorem claim_C1_counterexample :
    trySyncBuilds (fun _ => false) 0 3 = false ∧
    (enableBuilds (fun _ => false)
      [{ id := 7, owner_name := "own", name := "repo", active := true }]
      "own" "repo").1 = true := by
  constructor
  · simp [trySyncBuilds]
  · decide

/-- C1 (amended): `enableBuilds` returns `false` exactly when no hook in the
fetched list matches the owner/repo pair, independently of whether the sync
ever succeeded; when a matching hook exists it returns `true`, first putting
an activation update for the hook when the hook is inactive. -/
theorem claim_C1_enableBuilds_hook_determines_result
    (attempt : Nat → Bool) (hooks : List TravisHook) (owner repo : String) :
    ((enableBuilds attempt hooks owner repo).1 = false ↔
      hooks.find? (fun hk => hk.owner_name == owner && hk.name == repo) =
        none) ∧
    (∀ hk : TravisHook,
      hooks.find? (fun hk => hk.owner_name == owner && hk.name == repo) =
        some hk →
      (enableBuilds attempt hooks owner repo).1 = true ∧
      (enableBuilds attempt hooks owner repo).2 =
        (if hk.active then none else some hk.id)) := by
  rcases hf : hooks.find? (fun hk => hk.owner_name == owner && hk.name == repo)
    with _ | hk0
  · refine ⟨?_, ?_⟩
    · simp [enableBuilds, hf]
    · intro hk heq
      rw [hf] at heq
      exact Option.noConfusion heq
  · refine ⟨?_, ?_⟩
    · by_cases hac : hk0.active = true <;> simp [enableBuilds, hf, hac]
    · intro hk heq
      rw [hf, Option.some.injEq] at heq
      subst heq
      by_cases hac : hk0.active = true <;> simp [enableBuilds, hf, hac]

/-- Witness for C1 (amended): with a never-succeeding sync oracle and a
single matching inactive hook, the result is true and the hook id is put for
activation. -/
theorem claim_C1_witness :
    (enableBuilds (fun _ => false)
      [{ id := 9, owner_name := "own", name := "repo", active := false }]
      "own" "repo").1 = true ∧
    (enableBuilds (fun _ => false)
      [{ id := 9, owner_name := "own", name := "repo", active := false }]
      "own" "repo").2 = some 9 := by
  have h := (claim_C1_enableBuilds_hook_determines_result (fun _ => false)
    [{ id := 9, owner_name := "own", name := "repo", active := false }]
    "own" "repo").2
    { id := 9, owner_name := "own", name := "repo", active := false }
    (by decide)
  exact ⟨h.1, h.2.trans (by decide)⟩

/-- C5: for every directory tree and tag set, the template substitution
engine visits every regular file (recursing into subdirectories), rewrites
each file in place to the result of applying the tag substitutions in the
tag set's insertion order, and never creates or deletes files: the set of
file paths of the compiled tree is exactly that of the original tree, and
each file's new content is `compileTemplateFile` of its old content. -/
theorem claim_C5_compileTemplate_rewrites_every_file_in_place :
    (∀ (tags : List (List Char × List Char)) (t : FsEntry),
      filesOf [] (compileEntry tags t) =
        (filesOf [] t).map (fun pc => (pc.1, compileTemplateFile pc.2 tags))) ∧
    (∀ (text : List Char) (kv : List Char × List Char)
        (rest : List (List Char × List Char)),
      compileTemplateFile text (kv :: rest) =
        compileTemplateFile (replaceAll ('%' :: kv.1) kv.2 text) rest) :=
  ⟨fun tags t => filesOf_compileEntry tags t [], fun _ _ _ => rfl⟩

/-- C6: `updateLicenseText` replaces only the first occurrence of each exact
bracketed token with the supplied value and leaves later occurrences of the
same token unchanged: for a text containing the `[year]` token twice, with
no earlier occurrence before the first and no occurrence of the other four
tokens in the substituted result, only the first `[year]` is replaced and
the second survives verbatim. -/
theorem claim_C6_license_tokens_first_occurrence_only
    (pre mid post author email serviceName homepage year : List Char)
    (hfirst : ∀ i < pre.length,
      ("[year]".toList).isPrefixOf
        ((pre ++ "[year]".toList ++ (mid ++ "[year]".toList ++ post)).drop i)
        = false)
    (h1 : containsSub "[fullname]".toList
      (pre ++ year ++ (mid ++ "[year]".toList ++ post)) = false)
    (h2 : containsSub "[email]".toList
      (pre ++ year ++ (mid ++ "[year]".toList ++ post)) = false)
    (h3 : containsSub "[project]".toList
      (pre ++ year ++ (mid ++ "[year]".toList ++ post)) = false)
    (h4 : containsSub "[project_url]".toList
      (pre ++ year ++ (mid ++ "[year]".toList ++ post)) = false) :
    updateLicenseText
      (pre ++ "[year]".toList ++ (mid ++ "[year]".toList ++ post))
      author email serviceName homepage year =
      pre ++ year ++ (mid ++ "[year]".toList ++ post) := by
  have e1 : ('[' :: ("year".toList ++ [']'])) = "[year]".toList := rfl
  have e2 : ('[' :: ("fullname".toList ++ [']'])) = "[fullname]".toList := rfl
  have e3 : ('[' :: ("email".toList ++ [']'])) = "[email]".toList := rfl
  have e4 : ('[' :: ("project".toList ++ [']'])) = "[project]".toList := rfl
  have e5 : ('[' :: ("project_url".toList ++ [']'])) = "[project_url]".toList :=
    rfl
  unfold updateLicenseText
  simp only [List.foldl_cons, List.foldl_nil, e1, e2, e3, e4, e5]
  rw [replaceFirst_at_first_occurrence "[year]".toList year pre
    (mid ++ "[year]".toList ++ post) hfirst]
  rw [replaceFirst_not_contains "[fullname]".toList author _ h1,
    replaceFirst_not_contains "[email]".toList email _ h2,
    replaceFirst_not_contains "[project]".toList serviceName _ h3,
    replaceFirst_not_contains "[project_url]".toList homepage _ h4]

/-- Witness for C6: in the text AB[year]-[year]TAIL only the first [year]
token is replaced with 2024; the second is left unchanged. -/
theorem claim_C6_witness :
    updateLicenseText "AB[year]-[year]TAIL".toList "Ada".toList "a@b".toList
      "svc".toList "hp".toList "2024".toList = "AB2024-[year]TAIL".toList := by
  have h := claim_C6_license_tokens_first_occurrence_only
    "AB".toList "-".toList "TAIL".toList "Ada".toList "a@b".toList
    "svc".toList "hp".toList "2024".toList
    (by decide) (by decide) (by decide) (by decide) (by decide)
  rw [show ("AB[year]-[year]TAIL".toList) =
      "AB".toList ++ "[year]".toList ++
        ("-".toList ++ "[year]".toList ++ "TAIL".toList) by decide]
  rw [h]
  decide

/-- C7: `nodeVersion("latest")` returns the version string of the first
catalog entry and `nodeVersion("lts")` returns the version string of the
first entry whose lts flag is truthy, both with the leading letter v
stripped (the claim's hypothesis that the catalog is sorted descending then
makes the first entry the highest version). -/
theorem claim_C7_nodeVersion_latest_and_lts :
    (∀ (v : NodeVersion) (rest : List NodeVersion),
      nodeVersionOn (v :: rest) "latest".toList = stripLeadingV v.version) ∧
    (∀ (versions : List NodeVersion) (v : NodeVersion),
      versions.find? (fun x => jsLtsTruthy x.lts) = some v →
      nodeVersionOn versions "lts".toList = stripLeadingV v.version) := by
  constructor
  · intro v rest
    unfold nodeVersionOn
    rw [if_pos (Or.inr rfl)]
    rfl
  · intro versions v hfind
    unfold nodeVersionOn
    rw [if_neg (by decide), if_pos (Or.inr (Or.inl rfl))]
    rw [hfind]

/-- Witness for C7: with a catalog whose first entry is not LTS and whose
second entry carries the LTS codename Hydrogen, the lts tag resolves to the
second entry's version with the v stripped. -/
theorem claim_C7_witness :
    nodeVersionOn
      [{ version := "v20.1.0".toList, date := [], files := [],
         lts := .inl false, v8 := [] },
       { version := "v18.2.0".toList, date := [], files := [],
         lts := .inr "Hydrogen".toList, v8 := [] }]
      "lts".toList = "18.2.0".toList := by
  have h := claim_C7_nodeVersion_latest_and_lts.2
    [{ version := "v20.1.0".toList, date := [], files := [],
       lts := .inl false, v8 := [] },
     { version := "v18.2.0".toList, date := [], files := [],
       lts := .inr "Hydrogen".toList, v8 := [] }]
    { version := "v18.2.0".toList, date := [], files := [],
      lts := .inr "Hydrogen".toList, v8 := [] }
    (by decide)
  exact h.trans (by decide)

/-- C8: `semverCompare` is a strict total order on semantic versions
consistent with SemVer precedence: its value is always one of -1, 0, 1;
it is 0 exactly on equal versions (antisymmetry); -1 for a pair exactly when
it is 1 for the swapped pair; and the -1 relation is transitive.  In
particular `semverCompare("2.0.0","1.9.9") = -1` and
`semverCompare("1.0.0","1.0.0") = 0`. -/
theorem claim_C8_semverCompare_strict_total_order :
    semverCompare ⟨2, 0, 0, []⟩ ⟨1, 9, 9, []⟩ = -1 ∧
    semverCompare ⟨1, 0, 0, []⟩ ⟨1, 0, 0, []⟩ = 0 ∧
    (∀ a b : SemVer,
      semverCompare a b = -1 ∨ semverCompare a b = 0 ∨ semverCompare a b = 1) ∧
    (∀ a b : SemVer, semverCompare a b = 0 ↔ a = b) ∧
    (∀ a b : SemVer, semverCompare a b = -1 ↔ semverCompare b a = 1) ∧
    (∀ a b c : SemVer, semverCompare a b = -1 → semverCompare b c = -1 →
      semverCompare a c = -1) := by
  have hgt : ∀ a b : SemVer, semverCompare a b = -1 ↔ semverCmp a b = .gt := by
    intro a b
    rw [semverCompare_eq_match]
    rcases h : semverCmp a b with _ | _ | _ <;> decide
  have hlt : ∀ a b : SemVer, semverCompare a b = 1 ↔ semverCmp a b = .lt := by
    intro a b
    rw [semverCompare_eq_match]
    rcases h : semverCmp a b with _ | _ | _ <;> decide
  have heq : ∀ a b : SemVer, semverCompare a b = 0 ↔ semverCmp a b = .eq := by
    intro a b
    rw [semverCompare_eq_match]
    rcases h : semverCmp a b with _ | _ | _ <;> decide
  have hswap : ∀ a b : SemVer,
      semverCmp a b = .gt ↔ semverCmp b a = .lt := by
    intro a b
    have h := isCmp_semverCmp.swap_eq b a
    rcases hba : semverCmp b a with _ | _ | _ <;> rw [hba] at h <;>
      rw [← h] <;> decide
  refine ⟨by decide, by decide, ?_, ?_, ?_, ?_⟩
  · intro a b
    rw [semverCompare_eq_match]
    rcases h : semverCmp a b with _ | _ | _ <;> decide
  · intro a b
    rw [heq a b]
    exact isCmp_semverCmp.eq_iff a b
  · intro a b
    rw [hgt a b, hlt b a]
    exact hswap a b
  · intro a b c hab hbc
    rw [hgt] at hab hbc ⊢
    rw [hswap] at hab hbc ⊢
    exact isCmp_semverCmp.lt_trans c b a hbc hab

/-- Witness for C8: transitivity applied at 3.0.0 > 2.0.0 > 1.0.0. -/
theorem claim_C8_witness :
    semverCompare ⟨3, 0, 0, []⟩ ⟨1, 0, 0, []⟩ = -1 :=
  claim_C8_semverCompare_strict_total_order.2.2.2.2.2
    ⟨3, 0, 0, []⟩ ⟨2, 0, 0, []⟩ ⟨1, 0, 0, []⟩ (by decide) (by decide)
